import Mathlib

/-!
Verification of the stream-normalization core of the ai-code-search
repository: a shallow embedding, in Lean, of the event model, the
reference-format line mapping, the line-buffering stream consumers and the
three backend adapters, together with theorems settling the specified
properties against these definitions.

Sources embedded:
  - src/utils/stream-parser.ts   : basename, getToolCallInfo, parseStreamEvent
  - src/mcp-server.ts            : runWithCursorAgent stream consumption
  - src/utils/gemini-agent.ts    : geminiEventToCursorLine, runGeminiStream, emitFinal
  - src/unnamed (claude adapter) : runClaudeAgentStream
  - src/utils (projects)         : getProjectPath
-/

/-! ## JSON values and JavaScript-style helpers

JSON values as produced by a successful call to the JavaScript JSON.parse.
Numbers keep their raw numeral text: none of the embedded code ever
computes with a number, it only tests types and truthiness. -/

inductive Json where
  | null : Json
  | bool : Bool → Json
  | num : String → Json
  | str : String → Json
  | arr : List Json → Json
  | obj : List (String × Json) → Json

/-- Word-for-word model of JavaScript property lookup on a parsed JSON
value: member access on anything except an object yields undefined,
modelled as none. -/
def lookupField : List (String × Json) → String → Option Json
  | [], _ => none
  | (k, v) :: rest, key => if k = key then some v else lookupField rest key

def Json.getField : Json → String → Option Json
  | .obj fields, key => lookupField fields key
  | _, _ => none

/-- Model of the recurring idiom in the source of reading a field and
keeping it only when it is a string. -/
def Json.getStrField (j : Json) (key : String) : Option String :=
  match j.getField key with
  | some (.str s) => some s
  | _ => none

/-- Whether the raw numeral denotes zero: every digit of the mantissa,
before any exponent marker, is 0. Floating-point underflow of tiny
nonzero numerals is not modelled; no embedded code path depends on it. -/
def numIsZero : List Char → Bool
  | [] => true
  | c :: rest =>
    if c = 'e' ∨ c = 'E' then true
    else if c.isDigit ∧ c ≠ '0' then false
    else numIsZero rest

/-- JavaScript truthiness of a parsed JSON value. -/
def jsTruthy : Json → Bool
  | .null => false
  | .bool b => b
  | .num raw => !(numIsZero raw.data)
  | .str s => s ≠ ""
  | .arr _ => true
  | .obj _ => true

/-- Model of the guard pattern used in getToolCallInfo on an optional
field value: the value is truthy and typeof gives object. For values
coming out of JSON.parse that is exactly: it is an array or an object. -/
def jsObjTruthy : Option Json → Bool
  | some (.arr _) => true
  | some (.obj _) => true
  | _ => false

/-- Truthiness of an optional field value, undefined being falsy. -/
def jsOptTruthy : Option Json → Bool
  | some j => jsTruthy j
  | none => false

/-- Keys enumerated by Object.keys on a value coming out of JSON.parse:
field names in document order for objects, index strings for arrays and
strings, nothing for other primitives. -/
def objKeys : Json → List String
  | .obj fields => fields.map Prod.fst
  | .arr elems => (List.range elems.length).map (fun i => toString i)
  | .str s => (List.range s.data.length).map (fun i => toString i)
  | _ => []

/-- Characters removed by the JavaScript String.prototype.trim. The rare
further Unicode space code points it also strips are not modelled; no
embedded code path depends on them. -/
def isJsWs (c : Char) : Bool :=
  c = ' ' ∨ c = '\t' ∨ c = '\n' ∨ c = '\r' ∨
  c = '\x0b' ∨ c = '\x0c' ∨ c = '\u00A0' ∨ c = '\uFEFF'

def trimChars (cs : List Char) : List Char :=
  ((cs.dropWhile isJsWs).reverse.dropWhile isJsWs).reverse

/-- JavaScript-style trim on strings. -/
def jsTrim (s : String) : String :=
  String.mk (trimChars s.data)

/-! ## A JSON parser modelling JSON.parse

Recursive-descent parser over the character list, with fuel for the
mutual recursion through arrays and objects. It follows the strict JSON
grammar accepted by JSON.parse: the four whitespace characters, no
leading zeros in numbers, string escapes, no trailing content. A
\u escape for a surrogate code unit is mapped through Char.ofNat, which
collapses lone surrogates; no embedded code path depends on them. -/

def isJsonWs (c : Char) : Bool :=
  c = ' ' ∨ c = '\t' ∨ c = '\n' ∨ c = '\r'

def skipWs (cs : List Char) : List Char :=
  cs.dropWhile isJsonWs

def hexVal (c : Char) : Option Nat :=
  if '0' ≤ c ∧ c ≤ '9' then some (c.toNat - '0'.toNat)
  else if 'a' ≤ c ∧ c ≤ 'f' then some (c.toNat - 'a'.toNat + 10)
  else if 'A' ≤ c ∧ c ≤ 'F' then some (c.toNat - 'A'.toNat + 10)
  else none

/-- Parses the body of a JSON string after the opening quote, returning
the decoded characters and the input after the closing quote. -/
def parseStringBody : List Char → List Char → Option (String × List Char)
  | [], _ => none
  | '"' :: rest, acc => some (String.mk acc.reverse, rest)
  | '\\' :: esc, acc =>
    match esc with
    | '"' :: rest => parseStringBody rest ('"' :: acc)
    | '\\' :: rest => parseStringBody rest ('\\' :: acc)
    | '/' :: rest => parseStringBody rest ('/' :: acc)
    | 'b' :: rest => parseStringBody rest ('\x08' :: acc)
    | 'f' :: rest => parseStringBody rest ('\x0c' :: acc)
    | 'n' :: rest => parseStringBody rest ('\n' :: acc)
    | 'r' :: rest => parseStringBody rest ('\r' :: acc)
    | 't' :: rest => parseStringBody rest ('\t' :: acc)
    | 'u' :: h1 :: h2 :: h3 :: h4 :: rest =>
      match hexVal h1, hexVal h2, hexVal h3, hexVal h4 with
      | some a, some b, some c, some d =>
        parseStringBody rest (Char.ofNat (((a * 16 + b) * 16 + c) * 16 + d) :: acc)
      | _, _, _, _ => none
    | _ => none
  | c :: rest, acc =>
    if c.toNat < 32 then none else parseStringBody rest (c :: acc)

def takeDigits (cs : List Char) : List Char × List Char :=
  (cs.takeWhile Char.isDigit, cs.dropWhile Char.isDigit)

/-- Parses a JSON number token (strict grammar: optional minus, integer
part without leading zeros, optional fraction, optional exponent) and
returns its raw text. -/
def parseNumber (cs : List Char) : Option (String × List Char) :=
  let (neg, cs1) := match cs with
    | '-' :: rest => ([('-' : Char)], rest)
    | _ => ([], cs)
  match cs1 with
  | [] => none
  | c :: rest =>
    if ¬ c.isDigit then none
    else if c = '0' ∧ (rest.head?.map Char.isDigit).getD false then none
    else
      let (intDigits, cs2) := takeDigits cs1
      let (fracPart, cs3) := match cs2 with
        | '.' :: afterDot =>
          let (ds, r) := takeDigits afterDot
          if ds = [] then ([('?' : Char)], afterDot) else ('.' :: ds, r)
        | _ => ([], cs2)
      if fracPart = [('?' : Char)] then none
      else
        let (expPart, cs4) := match cs3 with
          | e :: afterE =>
            if e = 'e' ∨ e = 'E' then
              let (sign, afterSign) := match afterE with
                | s :: r => if s = '+' ∨ s = '-' then ([s], r) else ([], afterE)
                | [] => ([], afterE)
              let (ds, r) := takeDigits afterSign
              if ds = [] then ([('?' : Char)], afterE) else (e :: (sign ++ ds), r)
            else ([], cs3)
          | [] => ([], cs3)
        if expPart = [('?' : Char)] then none
        else some (String.mk (neg ++ intDigits ++ fracPart ++ expPart), cs4)

/-- Inserts a parsed object member with the JavaScript semantics for
duplicate keys: position of the first occurrence, value of the last. -/
def objInsert : List (String × Json) → String → Json → List (String × Json)
  | [], k, v => [(k, v)]
  | (k', v') :: rest, k, v =>
    if k' = k then (k', v) :: rest else (k', v') :: objInsert rest k v

mutual

def parseValue : Nat → List Char → Option (Json × List Char)
  | 0, _ => none
  | fuel + 1, cs =>
    match skipWs cs with
    | 'n' :: 'u' :: 'l' :: 'l' :: rest => some (.null, rest)
    | 't' :: 'r' :: 'u' :: 'e' :: rest => some (.bool true, rest)
    | 'f' :: 'a' :: 'l' :: 's' :: 'e' :: rest => some (.bool false, rest)
    | '"' :: rest =>
      match parseStringBody rest [] with
      | some (s, rest') => some (.str s, rest')
      | none => none
    | '[' :: rest =>
      (match skipWs rest with
      | ']' :: rest' => some (.arr [], rest')
      | _ => parseElems fuel rest [])
    | '\x7b' :: rest =>
      (match skipWs rest with
      | '\x7d' :: rest' => some (.obj [], rest')
      | _ => parseMembers fuel rest [])
    | other =>
      match parseNumber other with
      | some (raw, rest) => some (.num raw, rest)
      | none => none

def parseElems : Nat → List Char → List Json → Option (Json × List Char)
  | 0, _, _ => none
  | fuel + 1, cs, acc =>
    match parseValue fuel cs with
    | some (v, rest) =>
      (match skipWs rest with
      | ',' :: rest' => parseElems fuel rest' (v :: acc)
      | ']' :: rest' => some (.arr (v :: acc).reverse, rest')
      | _ => none)
    | none => none

def parseMembers : Nat → List Char → List (String × Json) → Option (Json × List Char)
  | 0, _, _ => none
  | fuel + 1, cs, acc =>
    match skipWs cs with
    | '"' :: rest =>
      (match parseStringBody rest [] with
      | some (key, rest') =>
        (match skipWs rest' with
        | ':' :: rest'' =>
          (match parseValue fuel rest'' with
          | some (v, rest3) =>
            (match skipWs rest3 with
            | ',' :: rest4 => parseMembers fuel rest4 (objInsert acc key v)
            | '\x7d' :: rest4 => some (.obj (objInsert acc key v), rest4)
            | _ => none)
          | none => none)
        | _ => none)
      | none => none)
    | _ => none

end

/-- Model of JSON.parse: parse one value, allow surrounding whitespace,
reject trailing content; any failure is the thrown-and-caught case,
modelled as none. -/
def jsonParse (cs : List Char) : Option Json :=
  match parseValue (2 * cs.length + 4) cs with
  | some (j, rest) => if skipWs rest = [] then some j else none
  | none => none

/-! ## Embedding of src/utils/stream-parser.ts -/

/-- Result of parsing one reference-format line, mirroring the ParsedEvent
interface of the source: at most one of the three optional fields is ever
set by the mapping function, but the type allows all. -/
structure ParsedEvent where
  status : Option String := none
  result : Option String := none
  error : Option String := none
deriving DecidableEq, Repr

/-- Embedding of basename from stream-parser.ts: replace every backslash
with a slash, split on slash, drop empty segments, take the last segment,
falling back to the whole input. -/
def basename (path : String) : String :=
  let normalized := path.data.map (fun c => if c = '\\' then '/' else c)
  let parts := (normalized.splitOn '/').filter (fun p => p ≠ [])
  match parts.getLast? with
  | some p => String.mk p
  | none => path

/-- Embedding of the unknown-tool-kind label derivation inside
getToolCallInfo: a space inserted before every ASCII capital, the first
character capitalised, the result trimmed. -/
def humanizeKey (key : String) : String :=
  let spaced := key.data.flatMap (fun c => if c.isUpper then [' ', c] else [c])
  let upped := match spaced with
    | [] => []
    | c :: cs => c.toUpper :: cs
  String.mk (trimChars upped)

/-- Convenience for the source pattern reading args of a tool call: a
string field of an optional object, with a default. -/
def optStrFieldD (o : Option Json) (key dflt : String) : String :=
  match o with
  | some a => (a.getStrField key).getD dflt
  | none => dflt

/-- Embedding of getToolCallInfo from stream-parser.ts, branch for
branch. The final branch takes the first key Object.keys yields and,
when it is a nonempty string, humanises it and appends the ellipsis. -/
def getToolCallInfo (toolCall : Json) : Option String :=
  if jsObjTruthy (toolCall.getField "readToolCall") then
    let args := (toolCall.getField "readToolCall").bind (Json.getField · "args")
    let path := optStrFieldD args "path" ""
    if path ≠ "" then some ("Reading file: " ++ basename path) else some "Reading file"
  else if jsObjTruthy (toolCall.getField "grepToolCall") then
    let args := (toolCall.getField "grepToolCall").bind (Json.getField · "args")
    let pat := optStrFieldD args "pattern" "…"
    let glob := optStrFieldD args "glob" ""
    if glob ≠ "" then some ("Searching for " ++ pat ++ " in " ++ glob)
    else some ("Searching for " ++ pat)
  else if jsObjTruthy (toolCall.getField "listDirToolCall") then
    let args := (toolCall.getField "listDirToolCall").bind (Json.getField · "args")
    let path := optStrFieldD args "path" ""
    if path ≠ "" then some ("Listing directory: " ++ basename path) else some "Listing directory"
  else if jsOptTruthy (toolCall.getField "codebaseSearchToolCall") then some "Searching codebase"
  else if jsOptTruthy (toolCall.getField "webSearchToolCall") then some "Searching the web"
  else
    match (objKeys toolCall).head? with
    | some key => if key ≠ "" then some (humanizeKey key ++ "…") else none
    | none => none

/-- Embedding of the body of parseStreamEvent after a successful
JSON.parse. The source is a sequence of if blocks falling through; the
blocks guard on pairwise distinct type strings, so the flattened
if-else chain below is equivalent. -/
def parseStreamEventJson (obj : Json) : Option ParsedEvent :=
  let type := (obj.getStrField "type").getD ""
  let subtype := (obj.getStrField "subtype").getD ""
  if type = "system" ∧ subtype = "init" then some { status := some "Starting…" }
  else if type = "thinking" ∧ subtype = "delta" then some { status := some "Thinking…" }
  else if type = "thinking" ∧ subtype = "completed" then some { status := some "Thinking completed." }
  else if type = "tool_call" then
    match obj.getField "tool_call" with
    | some tc =>
      if subtype = "started" ∧ jsTruthy tc then
        match getToolCallInfo tc with
        | some label => some { status := some label }
        | none => none
      else if subtype = "completed" ∧ jsTruthy tc then
        match getToolCallInfo tc with
        | some label => some { status := some (label ++ " — done.") }
        | none => none
      else none
    | none => none
  else if type = "assistant" then some { status := some "Preparing answer…" }
  else if type = "result" ∧ subtype = "success" then
    match obj.getStrField "result" with
    | some r => some { result := some r }
    | none => none
  else if type = "result" ∧ subtype = "error" then
    some { status := some ("Error: " ++ (obj.getStrField "error").getD "Unknown error") }
  else if type = "status" then
    match obj.getStrField "status" with
    | some s => some { status := some s }
    | none => none
  else if type = "error" then
    match obj.getStrField "error" with
    | some e => some { error := some e }
    | none => none
  else none

/-- Embedding of parseStreamEvent from stream-parser.ts: trim the line,
reject the empty line, attempt JSON.parse, absorb the parse failure into
none, and otherwise map the parsed object. -/
def parseStreamEvent (line : String) : Option ParsedEvent :=
  let trimmed := jsTrim line
  if trimmed = "" then none
  else
    match jsonParse trimmed.data with
    | some obj => parseStreamEventJson obj
    | none => none

/-! ## The event model -/

/-- The common event vocabulary every backend adapter produces. The
process adapters put these on the wire as one JSON line per event; the
embedding works at the event level. -/
inductive Event where
  | status : String → Event
  | result : String → Event
  | error : String → Event
deriving DecidableEq, Repr

def Event.isTerminal : Event → Bool
  | .status _ => false
  | .result _ => true
  | .error _ => true

def Event.isStatus : Event → Bool
  | .status _ => true
  | _ => false

/-- Number of terminal events in an emitted sequence. -/
def countTerminal (evs : List Event) : Nat :=
  (evs.filter Event.isTerminal).length

/-- Whether every event before the last one is non-terminal: the shape
demanded by the at-most-one-terminal-and-nothing-after-it invariant. -/
def allNonTerminalBefore (evs : List Event) : Bool :=
  evs.dropLast.all (fun e => !e.isTerminal)

/-! ## Line buffering

The process consumers all keep a buffer of the partial last line, append
each incoming chunk, split off the complete lines and keep the remainder.
Text is modelled at character granularity (splitting a chunk in the
middle of a UTF-8 code unit sequence is the text decoder's business and
is not modelled). splitNl is the JavaScript split on the newline
character: it always returns at least one part and the last part is the
text after the final newline. -/

def splitNl : List Char → List (List Char)
  | [] => [[]]
  | c :: rest =>
    if c = '\n' then [] :: splitNl rest
    else
      match splitNl rest with
      | [] => [[c]]
      | l :: ls => (c :: l) :: ls

/-- One chunk step of the shared line-buffering loop, followed over the
whole chunk list: append the chunk to the buffer, run the per-line step
over the complete lines, keep the remainder as the new buffer. This is
the shape of the while loop in runGeminiStream and of the split-and-pop
in the stream consumers. -/
def bufferedFold (step : α → List Char → α) : α × List Char → List (List Char) → α × List Char
  | (s, buf), [] => (s, buf)
  | (s, buf), c :: cs =>
    let parts := splitNl (buf ++ c)
    bufferedFold step (parts.dropLast.foldl step s, parts.getLastD []) cs

/-- Complete lines of a chunk sequence: everything before the final
newline, split on newlines. -/
def completeLines (chunks : List (List Char)) : List (List Char) :=
  (splitNl chunks.flatten).dropLast

/-- The trailing partial line of a chunk sequence: what is left in the
buffer when the stream ends. -/
def lastPart (chunks : List (List Char)) : List Char :=
  (splitNl chunks.flatten).getLastD []

/-! ## Embedding of the MCP stream consumer (src/mcp-server.ts)

The consumer in runWithCursorAgent maps each complete line through
parseStreamEvent; a line that maps to an error rejects the promise and
returns from the data handler, dropping the remaining lines of that
chunk only — later chunks still fire the handler. On stream end the
remaining buffer, when nonempty, goes through the same mapping. The
events a parsed line leads the consumer to act on: -/

def peAll (f : List Char → Option ParsedEvent) (l : List Char) : List Event :=
  match f l with
  | none => []
  | some p =>
    match p.error with
    | some e => [Event.error e]
    | none =>
      (p.status.map Event.status).toList ++ (p.result.map Event.result).toList

/-- Per-chunk line loop of runWithCursorAgent: an error event ends the
handler invocation, so the remaining lines of the chunk produce
nothing. -/
def mcpLines (f : List Char → Option ParsedEvent) : List (List Char) → List Event
  | [] => []
  | l :: ls =>
    match f l with
    | none => mcpLines f ls
    | some p =>
      match p.error with
      | some e => [Event.error e]
      | none =>
        ((p.status.map Event.status).toList ++ (p.result.map Event.result).toList)
          ++ mcpLines f ls

/-- End-of-stream flush of runWithCursorAgent: the buffer, when nonempty,
is passed through the same line mapping. -/
def flushEvents (f : List Char → Option ParsedEvent) (buf : List Char) : List Event :=
  if buf = [] then [] else peAll f buf

/-- The full MCP consumer over a chunked stream, from a given buffer. -/
def mcpChunks (f : List Char → Option ParsedEvent) : List Char → List (List Char) → List Event
  | buf, [] => flushEvents f buf
  | buf, c :: cs =>
    let parts := splitNl (buf ++ c)
    mcpLines f parts.dropLast ++ mcpChunks f (parts.getLastD []) cs

/-- Events the MCP consumer acts on for a chunked stream. -/
def mcpConsume (f : List Char → Option ParsedEvent) (chunks : List (List Char)) : List Event :=
  mcpChunks f [] chunks

/-- The MCP consumer minus its end-of-stream flush, used to state where
exactly the flush contributes. -/
def mcpChunksNoFlush (f : List Char → Option ParsedEvent) : List Char → List (List Char) → List Event
  | _, [] => []
  | buf, c :: cs =>
    let parts := splitNl (buf ++ c)
    mcpLines f parts.dropLast ++ mcpChunksNoFlush f (parts.getLastD []) cs

/-- The line mapping the MCP consumer uses. -/
def pse (l : List Char) : Option ParsedEvent :=
  parseStreamEvent (String.mk l)

/-! ## Embedding of the lenient adapter (src/utils/gemini-agent.ts) -/

/-- Spaces for underscores, as in the tool-name label of the source. -/
def underscoresToSpaces (s : String) : String :=
  String.mk (s.data.map (fun c => if c = '_' then ' ' else c))

/-- Embedding of geminiEventToCursorLine: converts one parsed native
event into at most one cursor-format event, threading the accumulated
assistant text. none means the event is unhandled and the caller shows
the raw line; some (none, ac) means no event but an updated
accumulator. The source builds JSON lines; the embedding keeps the
event those lines encode. -/
def geminiEventToCursorLine (obj : Json) (assistantContent : String) :
    Option (Option Event × String) :=
  let type := (obj.getStrField "type").getD ""
  if type = "init" then some (some (.status "Starting…"), assistantContent)
  else if type = "message" then
    let role := (obj.getStrField "role").getD ""
    let content := (obj.getStrField "content").getD ""
    if role = "user" then some (some (.status "Sending prompt…"), assistantContent)
    else if role = "assistant" ∧ content ≠ "" then some (none, assistantContent ++ content)
    else none
  else if type = "tool_use" then
    let toolName := (obj.getStrField "tool_name").getD ""
    let filePath := optStrFieldD (obj.getField "parameters") "file_path" ""
    let label :=
      if filePath ≠ "" then "Reading file: " ++ basename filePath
      else if toolName ≠ "" then underscoresToSpaces toolName ++ "…"
      else "Using tool…"
    some (some (.status label), assistantContent)
  else if type = "tool_result" then some (some (.status "Tool completed."), assistantContent)
  else if type = "result" then
    if (obj.getStrField "status").getD "" = "success" then
      let result := if jsTrim assistantContent ≠ "" then jsTrim assistantContent else "(No response)"
      some (some (.result result), assistantContent)
    else
      some (some (.error ((obj.getStrField "error").getD "Unknown error")), assistantContent)
  else none

/-- State of the gemini adapter's data loop: events pushed so far, the
running assistant-text accumulator, and whether a terminal line has been
pushed. The source detects the latter by substring search for a result
or error type tag in the pushed line; JSON.stringify escapes quotes
inside status text, so the test is equivalent to the pushed event being
a result or an error. -/
structure GemAcc where
  events : List Event
  assistantContent : String
  resultEmitted : Bool
deriving Repr

def gemInit : GemAcc :=
  { events := [.status "Running Gemini…"], assistantContent := "", resultEmitted := false }

/-- Embedding of the per-line body of the data handler in
runGeminiStream: trim the line, skip it when empty, try JSON.parse,
convert on success, and push the raw line as a status when the line is
not JSON or not a handled native event. -/
def gemLineStep (acc : GemAcc) (line : List Char) : GemAcc :=
  let raw := jsTrim (String.mk line)
  if raw = "" then acc
  else
    match jsonParse raw.data with
    | none => { acc with events := acc.events ++ [.status raw] }
    | some obj =>
      match geminiEventToCursorLine obj acc.assistantContent with
      | none => { acc with events := acc.events ++ [.status raw] }
      | some (none, ac) => { acc with assistantContent := ac }
      | some (some ev, ac) =>
        { events := acc.events ++ [ev], assistantContent := ac,
          resultEmitted := acc.resultEmitted || ev.isTerminal }

/-- The data phase of runGeminiStream over a chunked stream: the initial
status is pushed before any data arrives, then the line-buffering loop
runs. Returns the final state and the unconsumed line buffer. -/
def gemData (chunks : List (List Char)) : GemAcc × List Char :=
  bufferedFold gemLineStep (gemInit, []) chunks

/-- Embedding of the error message built for a nonzero exit code. -/
def exitMsg (code : Int) (stderrTrim : String) : String :=
  if stderrTrim ≠ "" then "Exit code " ++ toString code ++ ". stderr:\n" ++ stderrTrim
  else "Process exited with code " ++ toString code ++ "."

/-- The non-error fallback chain of emitFinal, in source order:
accumulated assistant text, then raw stdout, then captured stderr
wrapped in a result, then the placeholder. -/
def emitFinalFallback (assistantTrim stdoutTrim stderrTrim : String) : List Event :=
  if assistantTrim ≠ "" then [.result assistantTrim]
  else if stdoutTrim ≠ "" then [.result stdoutTrim]
  else if stderrTrim ≠ "" then [.result ("(No stdout)\n\n--- stderr ---\n" ++ stderrTrim)]
  else [.result "(No output)"]

/-- Embedding of emitFinal from gemini-agent.ts: nothing if a terminal
line was already pushed; an error if the process exited nonzero; else
the fallback chain. The exit code is an Option because the source reads
child.exitCode which may still be null. Note the line buffer is not
consulted: a trailing partial line is never mapped. -/
def emitFinal (resultEmitted : Bool) (exitCode : Option Int)
    (stderrBuffer stdoutBuffer assistantContent : String) : List Event :=
  if resultEmitted then []
  else
    let stderrTrim := jsTrim stderrBuffer
    let stdoutTrim := jsTrim stdoutBuffer
    match exitCode with
    | some code =>
      if code ≠ 0 then [.error (exitMsg code stderrTrim)]
      else emitFinalFallback (jsTrim assistantContent) stdoutTrim stderrTrim
    | none => emitFinalFallback (jsTrim assistantContent) stdoutTrim stderrTrim

/-- The full event sequence of one gemini run: the stream of stdout
chunks, the exit code observed at close, and the captured stderr
determine first the data-phase events, then the close-time synthesis. -/
def runGeminiStream (chunks : List (List Char)) (exitCode : Option Int)
    (stderrBuffer : String) : List Event :=
  let (acc, _) := gemData chunks
  acc.events ++
    emitFinal acc.resultEmitted exitCode stderrBuffer (String.mk chunks.flatten)
      acc.assistantContent

/-! ## Embedding of the SDK adapter (runClaudeAgentStream) -/

/-- JavaScript string coercion of an error-list member, used by the join;
members other than plain strings are approximated (the SDK declares the
list as strings). -/
def jsCoerceString : Json → String
  | .str s => s
  | .num raw => raw
  | .bool b => if b then "true" else "false"
  | .null => "null"
  | .arr _ => ""
  | .obj _ => "[object Object]"

/-- Events pushed for one SDK message, mirroring the body of the
for-await loop: the init status, the successful result, the error_
subtypes with an errors array; stream_event deltas and everything else
push nothing. -/
def claudeMsgEvents (m : Json) : List Event :=
  let type := (m.getStrField "type").getD ""
  let subtype := (m.getStrField "subtype").getD ""
  if type = "system" ∧ subtype = "init" then [.status "Claude agent ready."]
  else if type = "result" ∧ subtype = "success" then
    match m.getStrField "result" with
    | some r => [.result r]
    | none => []
  else if type = "result" ∧ subtype.startsWith "error_" then
    match m.getField "errors" with
    | some (.arr errs) =>
      [.error (if errs.length > 0 then
        String.intercalate "; " (errs.map jsCoerceString) else "Unknown error")]
    | _ => []
  else []

/-- The event sequence of one SDK run. importErr models an exception
raised while loading or configuring the SDK, before the initial status
is pushed: the catch block then pushes a single error. iterErr models an
exception raised by the message iterator after the listed messages. -/
def runClaudeAgentStream (importErr : Option String) (msgs : List Json)
    (iterErr : Option String) : List Event :=
  match importErr with
  | some e => [.error e]
  | none =>
    .status "Starting…" ::
      (msgs.flatMap claudeMsgEvents ++
        (match iterErr with
        | some e => [.error e]
        | none => []))

/-! ## Embedding of getProjectPath (projects utility) -/

/-- Whether the second list occurs at the head of the first. -/
def startsWithChars : List Char → List Char → Bool
  | _, [] => true
  | [], _ :: _ => false
  | a :: as, b :: bs => a = b && startsWithChars as bs

/-- Whether the second list occurs contiguously anywhere in the first. -/
def containsChars : List Char → List Char → Bool
  | s, pat =>
    if startsWithChars s pat then true
    else
      match s with
      | [] => false
      | _ :: rest => containsChars rest pat

/-- JavaScript String.prototype.includes. -/
def containsSub (s pat : String) : Bool :=
  containsChars s.data pat.data

/-- Node path.join for a second segment free of separators: the sources
directory, one separator, the name. -/
def joinPath (dir name : String) : String :=
  dir ++ "/" ++ name

/-- Embedding of getProjectPath: reject a name containing a parent
reference or a path separator, otherwise join it under the sources
directory. The thrown Error is modelled as the error branch. -/
def getProjectPath (sourcesDir projectName : String) : Except String String :=
  if containsSub projectName ".." ∨ containsSub projectName "/" ∨
      containsSub projectName "\\" then
    .error ("Invalid project name " ++ projectName ++ ".")
  else
    .ok (joinPath sourcesDir projectName)

/-! ## Predicates used by the statements -/

/-- Whether a line maps to a parsed event carrying the error field, the
case in which the MCP consumer rejects and leaves its data handler. -/
def errLine (f : List Char → Option ParsedEvent) (l : List Char) : Bool :=
  match f l with
  | some p => p.error.isSome
  | none => false

/-- Whether a line maps to a parsed event carrying a terminal payload, a
result or an error. -/
def terminalLine (f : List Char → Option ParsedEvent) (l : List Char) : Bool :=
  match f l with
  | some p => p.result.isSome || p.error.isSome
  | none => false

/-- Whether a native gemini line carries the terminal result type: these
are exactly the lines for which the lenient adapter pushes a result or
an error. The produced event's kind depends only on the line, not on the
accumulator state. -/
def gemTerminalLine (l : List Char) : Bool :=
  let raw := jsTrim (String.mk l)
  if raw = "" then false
  else
    match jsonParse raw.data with
    | some obj => (obj.getStrField "type").getD "" = "result"
    | none => false

/-- All lines the MCP consumer passes through the mapping: the complete
lines, then the trailing partial line when the stream does not end in a
newline. -/
def processedLines (chunks : List (List Char)) : List (List Char) :=
  completeLines chunks ++ (if lastPart chunks = [] then [] else [lastPart chunks])

/-- The type discriminators the reference mapping recognises. -/
def recognizedTypes : List String :=
  ["system", "thinking", "tool_call", "assistant", "result", "status", "error"]

/-- Whether a parsed JSON value lacks every recognised type
discriminator. -/
def lacksDiscriminator (obj : Json) : Bool :=
  !(recognizedTypes.contains ((obj.getStrField "type").getD ""))

/-! ## Lemmas about line splitting -/

theorem splitNl_ne_nil (cs : List Char) : splitNl cs ≠ [] := by
  induction cs with
  | nil => simp [splitNl]
  | cons c rest ih =>
    unfold splitNl
    split
    · simp
    · split <;> simp

theorem getLastD_ignores_default (t : List α) (h : t ≠ []) (d₁ d₂ : α) :
    t.getLastD d₁ = t.getLastD d₂ := by
  cases t with
  | nil => exact absurd rfl h
  | cons a l => rfl

theorem splitNl_no_newline (cs : List Char) : ∀ l ∈ splitNl cs, '\n' ∉ l := by
  induction cs with
  | nil =>
    intro l hl
    simp [splitNl] at hl
    simp [hl]
  | cons c rest ih =>
    intro l hl
    unfold splitNl at hl
    by_cases hc : c = '\n'
    · rw [if_pos hc] at hl
      rcases List.mem_cons.mp hl with h | h
      · simp [h]
      · exact ih l h
    · rw [if_neg hc] at hl
      rcases hS : splitNl rest with _ | ⟨s, t⟩
      · exact absurd hS (splitNl_ne_nil rest)
      · rw [hS] at hl
        rcases List.mem_cons.mp hl with h | h
        · subst h
          intro hmem
          rcases List.mem_cons.mp hmem with h | h
          · exact hc h.symm
          · exact ih s (by simp [hS]) h
        · exact ih l (by simp [hS, h])

theorem splitNl_eq_single (cs : List Char) (h : '\n' ∉ cs) : splitNl cs = [cs] := by
  induction cs with
  | nil => rfl
  | cons c rest ih =>
    have hc : c ≠ '\n' := fun hc => h (by simp [hc])
    have hrest : '\n' ∉ rest := fun hr => h (by simp [hr])
    unfold splitNl
    rw [if_neg hc, ih hrest]

theorem splitNl_cons_nl (rest : List Char) : splitNl ('\n' :: rest) = [] :: splitNl rest := by
  simp [splitNl]

theorem splitNl_cons_notnl (c : Char) (rest : List Char) (hc : c ≠ '\n')
    (s : List Char) (t : List (List Char)) (h : splitNl rest = s :: t) :
    splitNl (c :: rest) = (c :: s) :: t := by
  simp only [splitNl]
  rw [if_neg hc, h]

/-- Composition of splitting across an append: the complete lines of x,
then the split of y with the trailing part of x glued onto its first
part. -/
theorem splitNl_append (x y : List Char) :
    splitNl (x ++ y) =
      (splitNl x).dropLast ++
        (((splitNl x).getLastD []) ++ (splitNl y).headD []) :: (splitNl y).tail := by
  induction x with
  | nil =>
    rcases hY : splitNl y with _ | ⟨h, t⟩
    · exact absurd hY (splitNl_ne_nil y)
    · simp [splitNl, hY]
  | cons c x' ih =>
    rcases hS : splitNl x' with _ | ⟨s, t⟩
    · exact absurd hS (splitNl_ne_nil x')
    · rcases hY : splitNl y with _ | ⟨hy, ty⟩
      · exact absurd hY (splitNl_ne_nil y)
      · rw [hS, hY] at ih
        by_cases hc : c = '\n'
        · subst hc
          show splitNl ('\n' :: (x' ++ y)) = _
          rw [splitNl_cons_nl, splitNl_cons_nl, ih, hS]
          simp [List.getLastD_cons, List.dropLast_cons₂]
        · show splitNl (c :: (x' ++ y)) = _
          rw [splitNl_cons_notnl c x' hc s t hS]
          cases t with
          | nil =>
            simp only [List.dropLast_single, List.nil_append, List.getLastD_cons,
              List.getLastD_nil, List.headD_cons, List.tail_cons] at ih ⊢
            rw [splitNl_cons_notnl c (x' ++ y) hc (s ++ hy) ty ih]
            simp
          | cons t0 ts =>
            simp only [List.dropLast_cons₂, List.getLastD_cons, List.cons_append,
              List.headD_cons, List.tail_cons] at ih ⊢
            exact splitNl_cons_notnl c (x' ++ y) hc s _ ih

theorem getLastD_mem (l : List α) (d : α) (h : l ≠ []) : l.getLastD d ∈ l := by
  induction l generalizing d with
  | nil => exact absurd rfl h
  | cons a t ih =>
    cases ht : t with
    | nil => simp [List.getLastD_cons]
    | cons b t' =>
      rw [List.getLastD_cons]
      exact List.mem_cons_of_mem a (ht ▸ ih a (by simp [ht]))

theorem getLastD_append_right (a b : List α) (d : α) (h : b ≠ []) :
    (a ++ b).getLastD d = b.getLastD d := by
  induction a generalizing d with
  | nil => rfl
  | cons x a' ih =>
    rw [List.cons_append, List.getLastD_cons, ih, getLastD_ignores_default _ _ d]
    intro hb
    simp [hb] at h

theorem noNl_splitNl_getLastD (cs : List Char) : '\n' ∉ (splitNl cs).getLastD [] :=
  splitNl_no_newline cs _ (getLastD_mem _ _ (splitNl_ne_nil cs))

/-- Splitting after gluing a newline-free prefix onto the input. -/
theorem splitNl_glue (p y : List Char) (h : '\n' ∉ p) :
    splitNl (p ++ y) = (p ++ (splitNl y).headD []) :: (splitNl y).tail := by
  rw [splitNl_append, splitNl_eq_single p h]
  rfl

/-- The complete lines of an append: those of the prefix, then those of
the suffix with the prefix's trailing part glued on. -/
theorem splitNl_append_dropLast (x y : List Char) :
    (splitNl (x ++ y)).dropLast =
      (splitNl x).dropLast ++ (splitNl ((splitNl x).getLastD [] ++ y)).dropLast := by
  rw [splitNl_append, splitNl_glue _ y (noNl_splitNl_getLastD x),
    List.dropLast_append_of_ne_nil _ (List.cons_ne_nil _ _)]

/-- The trailing part of an append is determined by the prefix's trailing
part and the suffix. -/
theorem splitNl_append_getLastD (x y : List Char) :
    (splitNl (x ++ y)).getLastD [] =
      (splitNl ((splitNl x).getLastD [] ++ y)).getLastD [] := by
  rw [splitNl_append, splitNl_glue _ y (noNl_splitNl_getLastD x),
    getLastD_append_right _ _ _ (List.cons_ne_nil _ _)]

/-- The chunked line-buffering loop equals one split of the whole text:
the per-line step folds over all complete lines, and the buffer ends as
the text after the last newline. -/
theorem bufferedFold_eq (step : α → List Char → α) (chunks : List (List Char)) :
    ∀ (s : α) (buf : List Char), '\n' ∉ buf →
    bufferedFold step (s, buf) chunks =
      ((splitNl (buf ++ chunks.flatten)).dropLast.foldl step s,
       (splitNl (buf ++ chunks.flatten)).getLastD []) := by
  induction chunks with
  | nil =>
    intro s buf h
    simp [bufferedFold, splitNl_eq_single buf h]
  | cons c cs ih =>
    intro s buf h
    rw [bufferedFold, ih _ _ (noNl_splitNl_getLastD (buf ++ c))]
    have hflat : buf ++ (c :: cs).flatten = (buf ++ c) ++ cs.flatten := by
      simp [List.flatten_cons, List.append_assoc]
    rw [hflat, splitNl_append_dropLast (buf ++ c) cs.flatten,
      splitNl_append_getLastD (buf ++ c) cs.flatten, List.foldl_append]

/-! ## Lemmas about the MCP consumer -/

theorem dropLast_subset' (l : List α) : ∀ x ∈ l.dropLast, x ∈ l :=
  fun _ h => List.mem_of_mem_dropLast h

theorem subset_append_dropLast_left (xs ys : List α) (h : ys ≠ []) :
    ∀ x ∈ xs, x ∈ (xs ++ ys).dropLast := by
  intro x hx
  rw [List.dropLast_append_of_ne_nil _ h]
  exact List.mem_append_left _ hx

theorem mcpLines_single (f : List Char → Option ParsedEvent) (l : List Char) :
    mcpLines f [l] = peAll f l := by
  rcases hf : f l with _ | p
  · simp [mcpLines, peAll, hf]
  · rcases hp : p.error with _ | e
    · simp [mcpLines, peAll, hf, hp]
    · simp [mcpLines, peAll, hf, hp]

theorem mcpLines_cons_noerr (f : List Char → Option ParsedEvent) (l : List Char)
    (ls : List (List Char)) (hl : errLine f l = false) :
    mcpLines f (l :: ls) = peAll f l ++ mcpLines f ls := by
  unfold errLine at hl
  rcases hf : f l with _ | p
  · simp [mcpLines, peAll, hf]
  · rw [hf] at hl
    simp at hl
    rcases hp : p.error with _ | e
    · simp [mcpLines, peAll, hf, hp]
    · rw [hp] at hl
      simp at hl

/-- When no line before the last maps to an error, the per-chunk loop
never leaves early and acts on every line's events. -/
theorem mcpLines_flatMap (f : List Char → Option ParsedEvent) (lines : List (List Char))
    (h : ∀ l ∈ lines.dropLast, errLine f l = false) :
    mcpLines f lines = lines.flatMap (peAll f) := by
  induction lines with
  | nil => rfl
  | cons l ls ih =>
    cases hls : ls with
    | nil => simp [mcpLines_single]
    | cons l2 ls2 =>
      have hl : errLine f l = false := by
        apply h
        rw [hls]
        simp [List.dropLast_cons₂]
      have ihh : mcpLines f ls = ls.flatMap (peAll f) := by
        apply ih
        intro x hx
        apply h
        rw [hls] at hx ⊢
        rw [List.dropLast_cons₂]
        exact List.mem_cons_of_mem _ hx
      rw [← hls, mcpLines_cons_noerr f l ls hl, ihh]
      simp

theorem all_dropLast_append_left {P : α → Prop} (xs ys : List α)
    (h : ∀ x ∈ (xs ++ ys).dropLast, P x) : ∀ x ∈ xs.dropLast, P x := by
  intro x hx
  cases hys : ys with
  | nil => exact h x (by simpa [hys] using hx)
  | cons a b =>
    refine h x ?_
    rw [hys, List.dropLast_append_of_ne_nil _ (by simp)]
    exact List.mem_append_left _ (List.mem_of_mem_dropLast hx)

theorem all_dropLast_append_right {P : α → Prop} (xs ys : List α)
    (h : ∀ x ∈ (xs ++ ys).dropLast, P x) : ∀ x ∈ ys.dropLast, P x := by
  intro x hx
  cases hys : ys with
  | nil => simp [hys] at hx
  | cons a b =>
    refine h x ?_
    rw [hys, List.dropLast_append_of_ne_nil _ (by simp)]
    exact List.mem_append_right _ (hys ▸ hx)

/-- The MCP consumer in canonical form: when errors occur at most on the
last complete line, the consumer acts on the events of every complete
line in order, then flushes the trailing part. -/
theorem mcpChunks_canonical (f : List Char → Option ParsedEvent)
    (chunks : List (List Char)) :
    ∀ buf : List Char, '\n' ∉ buf →
    (∀ l ∈ (splitNl (buf ++ chunks.flatten)).dropLast.dropLast, errLine f l = false) →
    mcpChunks f buf chunks =
      ((splitNl (buf ++ chunks.flatten)).dropLast).flatMap (peAll f) ++
        flushEvents f ((splitNl (buf ++ chunks.flatten)).getLastD []) := by
  induction chunks with
  | nil =>
    intro buf hb _
    simp [mcpChunks, splitNl_eq_single buf hb]
  | cons c cs ih =>
    intro buf hb h
    have hflat : buf ++ (c :: cs).flatten = (buf ++ c) ++ cs.flatten := by
      simp [List.flatten_cons, List.append_assoc]
    rw [hflat] at h ⊢
    rw [splitNl_append_dropLast (buf ++ c) cs.flatten] at h ⊢
    rw [splitNl_append_getLastD (buf ++ c) cs.flatten]
    have hlines := mcpLines_flatMap f (splitNl (buf ++ c)).dropLast
      (all_dropLast_append_left _ _ h)
    have hrec := ih ((splitNl (buf ++ c)).getLastD []) (noNl_splitNl_getLastD (buf ++ c))
      (all_dropLast_append_right _ _ h)
    show mcpLines f (splitNl (buf ++ c)).dropLast ++
        mcpChunks f ((splitNl (buf ++ c)).getLastD []) cs = _
    rw [hlines, hrec, List.flatMap_append, List.append_assoc]

/-- The MCP consumer always ends by passing the trailing partial line,
when there is one, through the same per-line mapping. -/
theorem mcpChunks_flush_decomp (f : List Char → Option ParsedEvent)
    (chunks : List (List Char)) :
    ∀ buf : List Char, '\n' ∉ buf →
    mcpChunks f buf chunks =
      mcpChunksNoFlush f buf chunks ++
        flushEvents f ((splitNl (buf ++ chunks.flatten)).getLastD []) := by
  induction chunks with
  | nil =>
    intro buf hb
    simp [mcpChunks, mcpChunksNoFlush, splitNl_eq_single buf hb]
  | cons c cs ih =>
    intro buf hb
    have hflat : buf ++ (c :: cs).flatten = (buf ++ c) ++ cs.flatten := by
      simp [List.flatten_cons, List.append_assoc]
    rw [hflat, splitNl_append_getLastD (buf ++ c) cs.flatten]
    show mcpLines f (splitNl (buf ++ c)).dropLast ++
        mcpChunks f ((splitNl (buf ++ c)).getLastD []) cs = _
    rw [ih _ (noNl_splitNl_getLastD (buf ++ c))]
    simp [mcpChunksNoFlush, List.append_assoc]

/-! ## Shape of the per-line events -/

theorem errLine_of_terminalLine (f : List Char → Option ParsedEvent) (l : List Char)
    (h : terminalLine f l = false) : errLine f l = false := by
  unfold terminalLine at h
  unfold errLine
  rcases hf : f l with _ | p
  · rfl
  · rw [hf] at h
    simp only [Bool.or_eq_false_iff] at h
    exact h.2

theorem peAll_nonTerminal (f : List Char → Option ParsedEvent) (l : List Char)
    (h : terminalLine f l = false) : ∀ e ∈ peAll f l, e.isTerminal = false := by
  unfold terminalLine at h
  rcases hf : f l with _ | p
  · simp [peAll, hf]
  · rw [hf] at h
    simp only [Bool.or_eq_false_iff] at h
    obtain ⟨hr, he⟩ := h
    have hr' : p.result = none := by
      cases hres : p.result
      · rfl
      · rw [hres] at hr
        simp at hr
    have he' : p.error = none := by
      cases herr : p.error
      · rfl
      · rw [herr] at he
        simp at he
    rcases hs : p.status with _ | st <;>
      simp [peAll, hf, he', hr', hs, Event.isTerminal]

theorem peAll_dropLast_nonTerminal (f : List Char → Option ParsedEvent) (l : List Char) :
    ∀ e ∈ (peAll f l).dropLast, e.isTerminal = false := by
  rcases hf : f l with _ | p
  · simp [peAll, hf]
  · rcases hp : p.error with _ | err
    · rcases hr : p.result with _ | r
      · rcases hs : p.status with _ | st <;>
          simp [peAll, hf, hp, hr, hs, Event.isTerminal]
      · rcases hs : p.status with _ | st <;>
          simp [peAll, hf, hp, hr, hs, Event.isTerminal]
    · simp [peAll, hf, hp]

theorem all_dropLast_append_parts {P : α → Prop} (xs ys : List α)
    (hx : ∀ x ∈ xs, P x) (hy : ∀ x ∈ ys.dropLast, P x) :
    ∀ x ∈ (xs ++ ys).dropLast, P x := by
  intro x hmem
  cases hys : ys with
  | nil =>
    rw [hys, List.append_nil] at hmem
    exact hx x (List.mem_of_mem_dropLast hmem)
  | cons a b =>
    rw [hys, List.dropLast_append_of_ne_nil _ (by simp)] at hmem
    rcases List.mem_append.mp hmem with hm | hm
    · exact hx x hm
    · exact hy x (hys ▸ hm)

theorem flatMap_peAll_dropLast (f : List Char → Option ParsedEvent)
    (lines : List (List Char))
    (h : ∀ l ∈ lines.dropLast, terminalLine f l = false) :
    ∀ e ∈ (lines.flatMap (peAll f)).dropLast, e.isTerminal = false := by
  induction lines with
  | nil => simp
  | cons l ls ih =>
    cases hls : ls with
    | nil =>
      subst hls
      intro e he
      simp only [List.flatMap_cons, List.flatMap_nil, List.append_nil] at he
      exact peAll_dropLast_nonTerminal f l e he
    | cons l2 ls2 =>
      subst hls
      have hl : terminalLine f l = false := by
        apply h
        simp [List.dropLast_cons₂]
      have hrest : ∀ x ∈ (l2 :: ls2).dropLast, terminalLine f x = false := by
        intro x hx
        apply h
        rw [List.dropLast_cons₂]
        exact List.mem_cons_of_mem _ hx
      rw [List.flatMap_cons]
      exact all_dropLast_append_parts _ _ (peAll_nonTerminal f l hl) (ih hrest)

theorem allNonTerminalBefore_iff (evs : List Event) :
    allNonTerminalBefore evs = true ↔ ∀ e ∈ evs.dropLast, e.isTerminal = false := by
  simp [allNonTerminalBefore, List.all_eq_true]

theorem flatMap_peAll_all (f : List Char → Option ParsedEvent)
    (lines : List (List Char))
    (h : ∀ l ∈ lines, terminalLine f l = false) :
    ∀ e ∈ lines.flatMap (peAll f), e.isTerminal = false := by
  intro e he
  rcases List.mem_flatMap.mp he with ⟨l, hl, hel⟩
  exact peAll_nonTerminal f l (h l hl) e hel

/-- The strict consumer emits no event after the first terminal one,
provided only the last processed line maps to a terminal event. -/
theorem mcp_no_events_after_terminal (f : List Char → Option ParsedEvent)
    (chunks : List (List Char))
    (h : ∀ l ∈ (processedLines chunks).dropLast, terminalLine f l = false) :
    allNonTerminalBefore (mcpConsume f chunks) = true := by
  rw [allNonTerminalBefore_iff]
  unfold processedLines at h
  by_cases hp : lastPart chunks = []
  · rw [if_pos hp, List.append_nil] at h
    have herr : ∀ l ∈ (splitNl ([] ++ chunks.flatten)).dropLast.dropLast, errLine f l = false := by
      intro l hl
      exact errLine_of_terminalLine f l (h l (by simpa [completeLines] using hl))
    unfold mcpConsume
    rw [mcpChunks_canonical f chunks [] (by simp) herr]
    have hflush : flushEvents f ((splitNl ([] ++ chunks.flatten)).getLastD []) = [] := by
      have hlp : (splitNl ([] ++ chunks.flatten)).getLastD [] = [] := by
        simpa [lastPart] using hp
      rw [hlp]
      rfl
    rw [hflush, List.append_nil]
    intro e he
    refine flatMap_peAll_dropLast f (splitNl ([] ++ chunks.flatten)).dropLast ?_ e he
    intro l hl
    exact h l (by simpa [completeLines] using hl)
  · rw [if_neg hp, List.dropLast_append_of_ne_nil _ (by simp)] at h
    simp only [List.dropLast_single, List.append_nil] at h
    have herr : ∀ l ∈ (splitNl ([] ++ chunks.flatten)).dropLast.dropLast, errLine f l = false := by
      intro l hl
      exact errLine_of_terminalLine f l
        (h l (by simpa [completeLines] using List.mem_of_mem_dropLast hl))
    unfold mcpConsume
    rw [mcpChunks_canonical f chunks [] (by simp) herr]
    apply all_dropLast_append_parts
    · apply flatMap_peAll_all
      intro l hl
      exact h l (by simpa [completeLines] using hl)
    · intro e he
      unfold flushEvents at he
      split at he
      · simp at he
      · exact peAll_dropLast_nonTerminal f _ e he

/-! ## Lemmas about the lenient adapter -/

/-- An event converted from a native line whose type is not the terminal
result type is a status. -/
theorem geminiEventToCursorLine_nonterminal (obj : Json) (ac ac' : String) (ev : Event)
    (htype : ¬ (obj.getStrField "type").getD "" = "result")
    (hc : geminiEventToCursorLine obj ac = some (some ev, ac')) :
    ev.isTerminal = false := by
  unfold geminiEventToCursorLine at hc
  by_cases h1 : (obj.getStrField "type").getD "" = "init"
  · rw [if_pos h1] at hc
    simp only [Option.some.injEq, Prod.mk.injEq] at hc
    rw [← hc.1]
    rfl
  · rw [if_neg h1] at hc
    by_cases h2 : (obj.getStrField "type").getD "" = "message"
    · rw [if_pos h2] at hc
      by_cases h3 : (obj.getStrField "role").getD "" = "user"
      · rw [if_pos h3] at hc
        simp only [Option.some.injEq, Prod.mk.injEq] at hc
        rw [← hc.1]
        rfl
      · rw [if_neg h3] at hc
        by_cases h4 : (obj.getStrField "role").getD "" = "assistant" ∧
            ¬ (obj.getStrField "content").getD "" = ""
        · rw [if_pos h4] at hc
          simp at hc
        · rw [if_neg h4] at hc
          cases hc
    · rw [if_neg h2] at hc
      by_cases h5 : (obj.getStrField "type").getD "" = "tool_use"
      · rw [if_pos h5] at hc
        simp only [Option.some.injEq, Prod.mk.injEq] at hc
        rw [← hc.1]
        rfl
      · rw [if_neg h5] at hc
        by_cases h6 : (obj.getStrField "type").getD "" = "tool_result"
        · rw [if_pos h6] at hc
          simp only [Option.some.injEq, Prod.mk.injEq] at hc
          rw [← hc.1]
          rfl
        · rw [if_neg h6, if_neg htype] at hc
          cases hc

/-- A native line of the terminal result type always converts to a
terminal event. -/
theorem geminiEventToCursorLine_result (obj : Json) (ac : String)
    (htype : (obj.getStrField "type").getD "" = "result") :
    ∃ ev ac', geminiEventToCursorLine obj ac = some (some ev, ac') ∧ ev.isTerminal = true := by
  unfold geminiEventToCursorLine
  rw [htype]
  rw [if_neg (by decide), if_neg (by decide), if_neg (by decide), if_neg (by decide),
    if_pos rfl]
  by_cases hs : (obj.getStrField "status").getD "" = "success"
  · rw [if_pos hs]
    by_cases ha : jsTrim ac ≠ ""
    · rw [if_pos ha]
      exact ⟨.result (jsTrim ac), ac, rfl, rfl⟩
    · rw [if_neg ha]
      exact ⟨.result "(No response)", ac, rfl, rfl⟩
  · rw [if_neg hs]
    exact ⟨.error ((obj.getStrField "error").getD "Unknown error"), ac, rfl, rfl⟩

/-- One data-loop step on a non-terminal line: events are appended, all
of them statuses, and the terminal flag is untouched. -/
theorem gemLineStep_nonterminal (acc : GemAcc) (l : List Char)
    (h : gemTerminalLine l = false) :
    ∃ t, (gemLineStep acc l).events = acc.events ++ t ∧
      (∀ e ∈ t, e.isTerminal = false) ∧
      (gemLineStep acc l).resultEmitted = acc.resultEmitted := by
  simp only [gemTerminalLine] at h
  simp only [gemLineStep]
  by_cases hr : jsTrim (String.mk l) = ""
  · rw [if_pos hr]
    exact ⟨[], by simp, by simp, by trivial⟩
  · rw [if_neg hr] at h ⊢
    cases hj : jsonParse (jsTrim (String.mk l)).data with
    | none =>
      simp only [hj]
      refine ⟨[.status (jsTrim (String.mk l))], rfl, ?_, by trivial⟩
      simp [Event.isTerminal]
    | some obj =>
      simp only [hj] at h
      simp only [hj]
      simp only [decide_eq_false_iff_not] at h
      cases hc : geminiEventToCursorLine obj acc.assistantContent with
      | none =>
        simp only [hc]
        refine ⟨[.status (jsTrim (String.mk l))], rfl, ?_, by trivial⟩
        simp [Event.isTerminal]
      | some pr =>
        rcases pr with ⟨lineOpt, ac⟩
        cases lineOpt with
        | none =>
          simp only [hc]
          exact ⟨[], by simp, by simp, by trivial⟩
        | some ev =>
          have hev : ev.isTerminal = false :=
            geminiEventToCursorLine_nonterminal obj acc.assistantContent ac ev h hc
          simp only [hc]
          refine ⟨[ev], rfl, ?_, ?_⟩
          · simp [hev]
          · simp [hev]

/-- One data-loop step on a terminal line: exactly one event is pushed,
it is terminal, and the terminal flag is set. -/
theorem gemLineStep_terminal (acc : GemAcc) (l : List Char)
    (h : gemTerminalLine l = true) :
    ∃ ev, (gemLineStep acc l).events = acc.events ++ [ev] ∧ ev.isTerminal = true ∧
      (gemLineStep acc l).resultEmitted = true := by
  simp only [gemTerminalLine] at h
  simp only [gemLineStep]
  by_cases hr : jsTrim (String.mk l) = ""
  · rw [if_pos hr] at h
    cases h
  · rw [if_neg hr] at h ⊢
    cases hj : jsonParse (jsTrim (String.mk l)).data with
    | none =>
      rw [hj] at h
      cases h
    | some obj =>
      simp only [hj] at h
      simp only [hj]
      simp only [decide_eq_true_eq] at h
      obtain ⟨ev, ac', hc, hterm⟩ := geminiEventToCursorLine_result obj acc.assistantContent h
      simp only [hc]
      exact ⟨ev, rfl, hterm, by simp [hterm]⟩

theorem gemLineStep_extends (acc : GemAcc) (l : List Char) :
    ∃ t, (gemLineStep acc l).events = acc.events ++ t := by
  cases h : gemTerminalLine l
  · obtain ⟨t, ht, -, -⟩ := gemLineStep_nonterminal acc l h
    exact ⟨t, ht⟩
  · obtain ⟨ev, hev, -, -⟩ := gemLineStep_terminal acc l h
    exact ⟨[ev], hev⟩

theorem gemFold_extends (lines : List (List Char)) :
    ∀ acc, ∃ t, (List.foldl gemLineStep acc lines).events = acc.events ++ t := by
  induction lines with
  | nil => exact fun acc => ⟨[], by simp⟩
  | cons l ls ih =>
    intro acc
    obtain ⟨t1, h1⟩ := gemLineStep_extends acc l
    obtain ⟨t2, h2⟩ := ih (gemLineStep acc l)
    exact ⟨t1 ++ t2, by rw [List.foldl_cons, h2, h1, List.append_assoc]⟩

theorem gemFold_nonterminal (lines : List (List Char))
    (h : ∀ l ∈ lines, gemTerminalLine l = false) :
    ∀ acc, ∃ t, (List.foldl gemLineStep acc lines).events = acc.events ++ t ∧
      (∀ e ∈ t, e.isTerminal = false) ∧
      (List.foldl gemLineStep acc lines).resultEmitted = acc.resultEmitted := by
  induction lines with
  | nil => exact fun acc => ⟨[], by simp, by simp, rfl⟩
  | cons l ls ih =>
    intro acc
    obtain ⟨t1, h1, hnt1, hre1⟩ := gemLineStep_nonterminal acc l (h l (by simp))
    obtain ⟨t2, h2, hnt2, hre2⟩ := ih (fun x hx => h x (by simp [hx])) (gemLineStep acc l)
    refine ⟨t1 ++ t2, ?_, ?_, ?_⟩
    · rw [List.foldl_cons, h2, h1, List.append_assoc]
    · intro e he
      rcases List.mem_append.mp he with hm | hm
      · exact hnt1 e hm
      · exact hnt2 e hm
    · rw [List.foldl_cons, hre2, hre1]

theorem emitFinal_resultEmitted (ec : Option Int) (st so ac : String) :
    emitFinal true ec st so ac = [] := by
  simp [emitFinal]

theorem emitFinal_single (ec : Option Int) (st so ac : String) :
    ∃ e, emitFinal false ec st so ac = [e] := by
  simp only [emitFinal, emitFinalFallback, Bool.false_eq_true, if_false]
  split <;> split_ifs <;> exact ⟨_, rfl⟩

theorem dropLast_append_singleton (xs : List α) (a : α) : (xs ++ [a]).dropLast = xs := by
  simp

theorem mem_dropLast_assoc2 (A B : List α) (e x : α)
    (hx : x ∈ (A ++ (B ++ [e])).dropLast) : x ∈ A ++ B := by
  rw [← List.append_assoc, dropLast_append_singleton] at hx
  exact hx

theorem mem_dropLast_assoc3 (A B C : List α) (e x : α)
    (hx : x ∈ (A ++ (B ++ (C ++ [e]))).dropLast) : x ∈ A ++ (B ++ C) := by
  rw [← List.append_assoc, ← List.append_assoc, dropLast_append_singleton] at hx
  simpa [List.append_assoc] using hx

/-- The lenient adapter emits no event after the first terminal one,
provided no native line except possibly the last complete one is of the
terminal result type. -/
theorem gemini_no_events_after_terminal (chunks : List (List Char)) (ec : Option Int)
    (st : String)
    (h : ∀ l ∈ (completeLines chunks).dropLast, gemTerminalLine l = false) :
    allNonTerminalBefore (runGeminiStream chunks ec st) = true := by
  rw [allNonTerminalBefore_iff]
  unfold runGeminiStream gemData
  rw [bufferedFold_eq gemLineStep chunks gemInit [] (by simp)]
  simp only [List.nil_append]
  unfold completeLines at h
  rcases List.eq_nil_or_concat ((splitNl chunks.flatten).dropLast) with hnil | ⟨mid, last, hsplit⟩
  · rw [hnil]
    simp only [List.foldl_nil]
    obtain ⟨e, he⟩ := emitFinal_single ec st (String.mk chunks.flatten) gemInit.assistantContent
    show ∀ x ∈ (gemInit.events ++ emitFinal gemInit.resultEmitted ec st
      (String.mk chunks.flatten) gemInit.assistantContent).dropLast, x.isTerminal = false
    rw [show gemInit.resultEmitted = false from rfl, he,
      show gemInit.events = [.status "Running Gemini…"] from rfl]
    intro x hx
    simp at hx
    rw [hx]
    rfl
  · rw [List.concat_eq_append] at hsplit
    rw [hsplit] at h ⊢
    have hmid : ∀ l ∈ mid, gemTerminalLine l = false := by
      intro l hl
      exact h l (by simp [dropLast_append_singleton, hl])
    rw [List.foldl_append]
    obtain ⟨t, ht, hnt, hre⟩ := gemFold_nonterminal mid hmid gemInit
    have hre' : (List.foldl gemLineStep gemInit mid).resultEmitted = false := hre
    cases hterm : gemTerminalLine last
    · obtain ⟨t', ht', hnt', hre''⟩ :=
        gemLineStep_nonterminal (List.foldl gemLineStep gemInit mid) last hterm
      simp only [List.foldl_cons, List.foldl_nil]
      rw [ht', ht, hre'', hre']
      obtain ⟨e, he⟩ := emitFinal_single ec st (String.mk chunks.flatten)
        (gemLineStep (List.foldl gemLineStep gemInit mid) last).assistantContent
      rw [he]
      rw [show gemInit.events = [.status "Running Gemini…"] from rfl]
      intro x hx
      simp only [List.append_assoc] at hx
      have hx' := mem_dropLast_assoc3 _ _ _ _ _ hx
      rcases List.mem_append.mp hx' with h1 | h1
      · simp at h1
        rw [h1]
        rfl
      · rcases List.mem_append.mp h1 with h2 | h2
        · exact hnt x h2
        · exact hnt' x h2
    · obtain ⟨ev, hev, hevt, hre''⟩ :=
        gemLineStep_terminal (List.foldl gemLineStep gemInit mid) last hterm
      simp only [List.foldl_cons, List.foldl_nil]
      rw [hev, ht, hre'', emitFinal_resultEmitted, List.append_nil,
        show gemInit.events = [.status "Running Gemini…"] from rfl]
      intro x hx
      simp only [List.append_assoc] at hx
      have hx' := mem_dropLast_assoc2 _ _ _ _ hx
      rcases List.mem_append.mp hx' with h1 | h1
      · simp at h1
        rw [h1]
        rfl
      · exact hnt x h1

/-! ## Lemmas about the SDK adapter -/

/-- One SDK message pushes at most one event. -/
theorem claudeMsgEvents_dropLast (m : Json) : (claudeMsgEvents m).dropLast = [] := by
  simp only [claudeMsgEvents]
  split_ifs
  · rfl
  · cases m.getStrField "result" <;> rfl
  · cases hm : m.getField "errors" with
    | none => rfl
    | some j => cases j <;> rfl
  · rfl

theorem flatMap_dropLast_nonTerminal (g : α → List Event) (lines : List α)
    (h : ∀ l ∈ lines.dropLast, ∀ e ∈ g l, e.isTerminal = false)
    (hlast : ∀ l, ∀ e ∈ (g l).dropLast, e.isTerminal = false) :
    ∀ e ∈ (lines.flatMap g).dropLast, e.isTerminal = false := by
  induction lines with
  | nil => simp
  | cons l ls ih =>
    cases hls : ls with
    | nil =>
      subst hls
      intro e he
      simp only [List.flatMap_cons, List.flatMap_nil, List.append_nil] at he
      exact hlast l e he
    | cons l2 ls2 =>
      subst hls
      have hl : ∀ e ∈ g l, e.isTerminal = false := by
        apply h
        simp [List.dropLast_cons₂]
      have hrest : ∀ x ∈ (l2 :: ls2).dropLast, ∀ e ∈ g x, e.isTerminal = false := by
        intro x hx
        apply h
        rw [List.dropLast_cons₂]
        exact List.mem_cons_of_mem _ hx
      rw [List.flatMap_cons]
      exact all_dropLast_append_parts _ _ hl (ih hrest)

/-- The SDK adapter emits no event after the first terminal one, provided
the SDK call raises no exception and only the last message carries a
terminal payload. -/
theorem claude_no_events_after_terminal (msgs : List Json)
    (h : ∀ m ∈ msgs.dropLast, ∀ e ∈ claudeMsgEvents m, e.isTerminal = false) :
    allNonTerminalBefore (runClaudeAgentStream none msgs none) = true := by
  rw [allNonTerminalBefore_iff]
  intro e he
  unfold runClaudeAgentStream at he
  simp only [List.append_nil] at he
  cases hfm : msgs.flatMap claudeMsgEvents with
  | nil =>
    rw [hfm] at he
    simp at he
  | cons a l =>
    rw [hfm, List.dropLast_cons₂] at he
    rcases List.mem_cons.mp he with h1 | h1
    · rw [h1]
      rfl
    · rw [← hfm] at h1
      exact flatMap_dropLast_nonTerminal claudeMsgEvents msgs h
        (fun m e' he' => by rw [claudeMsgEvents_dropLast] at he'; cases he') e h1

/-! ## First-event lemmas -/

/-- The lenient adapter's first event is always the initial status,
pushed before any data is read. -/
theorem gemini_first_event (chunks : List (List Char)) (ec : Option Int) (st : String) :
    (runGeminiStream chunks ec st).head? = some (.status "Running Gemini…") := by
  unfold runGeminiStream gemData
  rw [bufferedFold_eq gemLineStep chunks gemInit [] (by simp)]
  obtain ⟨t, ht⟩ := gemFold_extends (splitNl ([] ++ chunks.flatten)).dropLast gemInit
  show ((List.foldl gemLineStep gemInit (splitNl ([] ++ chunks.flatten)).dropLast).events ++ _).head? = _
  rw [ht, show gemInit.events = [.status "Running Gemini…"] from rfl]
  simp

/-- The SDK adapter's first event, when the SDK loads, is the initial
status pushed before the message loop. -/
theorem claude_first_event (msgs : List Json) (iterErr : Option String) :
    (runClaudeAgentStream none msgs iterErr).head? = some (.status "Starting…") := rfl

/-! ## Row lemmas for the reference mapping -/

theorem parseStreamEvent_of_parse (line : String) (obj : Json)
    (h : jsonParse (jsTrim line).data = some obj) :
    parseStreamEvent line = parseStreamEventJson obj := by
  unfold parseStreamEvent
  have hne : ¬ jsTrim line = "" := by
    intro he
    rw [he] at h
    have h0 : jsonParse ("" : String).data = none := rfl
    rw [h0] at h
    cases h
  rw [if_neg hne, h]

/-- Claim C2: for every input line, parseStreamEvent returns exactly the
Event the reference-format table specifies for lines matching a table
row — in particular a result/success line with string result s maps to
Result s and an error line with string error s maps to Error s — and
returns no Event for every syntactically valid JSON line lacking a
recognised type discriminator and for every malformed JSON line. -/
theorem c2_reference_format_mapping :
    (parseStreamEvent "\x7b\"type\":\"result\",\"subtype\":\"success\",\"result\":\"done\"\x7d" =
      some { result := some "done" }) ∧
    (parseStreamEvent "\x7b\"type\":\"error\",\"error\":\"bad\"\x7d" =
      some { error := some "bad" }) ∧
    (∀ (line : String) (obj : Json) (s : String),
      jsonParse (jsTrim line).data = some obj →
      obj.getStrField "type" = some "result" →
      obj.getStrField "subtype" = some "success" →
      obj.getStrField "result" = some s →
      parseStreamEvent line = some { result := some s }) ∧
    (∀ (line : String) (obj : Json) (s : String),
      jsonParse (jsTrim line).data = some obj →
      obj.getStrField "type" = some "error" →
      obj.getStrField "error" = some s →
      parseStreamEvent line = some { error := some s }) ∧
    (∀ (line : String) (obj : Json),
      jsonParse (jsTrim line).data = some obj →
      obj.getStrField "type" = some "system" →
      obj.getStrField "subtype" = some "init" →
      parseStreamEvent line = some { status := some "Starting…" }) ∧
    (∀ (line : String) (obj : Json),
      jsonParse (jsTrim line).data = some obj →
      obj.getStrField "type" = some "thinking" →
      obj.getStrField "subtype" = some "delta" →
      parseStreamEvent line = some { status := some "Thinking…" }) ∧
    (∀ (line : String) (obj : Json),
      jsonParse (jsTrim line).data = some obj →
      obj.getStrField "type" = some "thinking" →
      obj.getStrField "subtype" = some "completed" →
      parseStreamEvent line = some { status := some "Thinking completed." }) ∧
    (∀ (line : String) (obj : Json),
      jsonParse (jsTrim line).data = some obj →
      obj.getStrField "type" = some "assistant" →
      parseStreamEvent line = some { status := some "Preparing answer…" }) ∧
    (∀ (line : String) (obj : Json),
      jsonParse (jsTrim line).data = some obj →
      obj.getStrField "type" = some "result" →
      obj.getStrField "subtype" = some "error" →
      parseStreamEvent line =
        some { status := some ("Error: " ++ (obj.getStrField "error").getD "Unknown error") }) ∧
    (∀ (line : String) (obj : Json) (s : String),
      jsonParse (jsTrim line).data = some obj →
      obj.getStrField "type" = some "status" →
      obj.getStrField "status" = some s →
      parseStreamEvent line = some { status := some s }) ∧
    (∀ (line : String) (obj : Json),
      jsonParse (jsTrim line).data = some obj →
      lacksDiscriminator obj = true →
      parseStreamEvent line = none) ∧
    (∀ line : String,
      jsonParse (jsTrim line).data = none → parseStreamEvent line = none) := by
  refine ⟨by decide, by decide, ?_, ?_, ?_, ?_, ?_, ?_, ?_, ?_, ?_, ?_⟩
  · intro line obj s h ht hs hr
    rw [parseStreamEvent_of_parse line obj h]
    simp only [parseStreamEventJson, ht, hs, hr, Option.getD_some]
    rw [if_neg (by simp), if_neg (by simp), if_neg (by simp), if_neg (by simp),
      if_neg (by simp), if_pos (by simp)]
  · intro line obj s h ht he
    rw [parseStreamEvent_of_parse line obj h]
    simp only [parseStreamEventJson, ht, he, Option.getD_some]
    rw [if_neg (by simp), if_neg (by simp), if_neg (by simp), if_neg (by simp),
      if_neg (by simp), if_neg (by simp), if_neg (by simp), if_neg (by simp),
      if_pos (by simp)]
  · intro line obj h ht hs
    rw [parseStreamEvent_of_parse line obj h]
    simp only [parseStreamEventJson, ht, hs, Option.getD_some]
    rw [if_pos (by simp)]
  · intro line obj h ht hs
    rw [parseStreamEvent_of_parse line obj h]
    simp only [parseStreamEventJson, ht, hs, Option.getD_some]
    rw [if_neg (by simp), if_pos (by simp)]
  · intro line obj h ht hs
    rw [parseStreamEvent_of_parse line obj h]
    simp only [parseStreamEventJson, ht, hs, Option.getD_some]
    rw [if_neg (by simp), if_neg (by simp), if_pos (by simp)]
  · intro line obj h ht
    rw [parseStreamEvent_of_parse line obj h]
    simp only [parseStreamEventJson, ht, Option.getD_some]
    rw [if_neg (by simp), if_neg (by simp), if_neg (by simp), if_neg (by simp),
      if_pos (by simp)]
  · intro line obj h ht hs
    rw [parseStreamEvent_of_parse line obj h]
    simp only [parseStreamEventJson, ht, hs, Option.getD_some]
    rw [if_neg (by simp), if_neg (by simp), if_neg (by simp), if_neg (by simp),
      if_neg (by simp), if_neg (by simp), if_pos (by simp)]
  · intro line obj s h ht hs
    rw [parseStreamEvent_of_parse line obj h]
    simp only [parseStreamEventJson, ht, hs, Option.getD_some]
    rw [if_neg (by simp), if_neg (by simp), if_neg (by simp), if_neg (by simp),
      if_neg (by simp), if_neg (by simp), if_neg (by simp), if_pos (by simp)]
  · intro line obj h hd
    rw [parseStreamEvent_of_parse line obj h]
    simp [lacksDiscriminator, recognizedTypes] at hd
    obtain ⟨h1, h2, h3, h4, h5, h6, h7⟩ := hd
    simp only [parseStreamEventJson]
    rw [if_neg (by simp [h1]), if_neg (by simp [h2]), if_neg (by simp [h2]),
      if_neg h3, if_neg h4, if_neg (by simp [h5]), if_neg (by simp [h5]),
      if_neg h6, if_neg h7]
  · intro line h
    unfold parseStreamEvent
    by_cases he : jsTrim line = ""
    · rw [if_pos he]
    · rw [if_neg he, h]

/-- Witness for C2: the general result-success row evaluated on one
concrete line. -/
theorem c2_reference_format_mapping_witness :
    parseStreamEvent "\x7b\"type\":\"result\",\"subtype\":\"success\",\"result\":\"ok\"\x7d" =
      some { result := some "ok" } :=
  c2_reference_format_mapping.2.2.1 _
    (Json.obj [("type", Json.str "result"), ("subtype", Json.str "success"),
      ("result", Json.str "ok")]) "ok" rfl rfl rfl rfl

/-- Claim C5: on the native sequence init, assistant message A, assistant
message B, result success, the lenient adapter emits an initial status,
then the terminal Result with the accumulated text AB, and the Result is
produced only by the terminal native result event: after the first three
messages no Result has been pushed. -/
theorem c5_lenient_accumulation :
    runGeminiStream [("\x7b\"type\":\"init\"\x7d\n" ++
        "\x7b\"type\":\"message\",\"role\":\"assistant\",\"content\":\"A\"\x7d\n" ++
        "\x7b\"type\":\"message\",\"role\":\"assistant\",\"content\":\"B\"\x7d\n" ++
        "\x7b\"type\":\"result\",\"status\":\"success\"\x7d\n").data] (some 0) "" =
      [.status "Running Gemini…", .status "Starting…", .result "AB"] ∧
    (gemData [("\x7b\"type\":\"init\"\x7d\n" ++
        "\x7b\"type\":\"message\",\"role\":\"assistant\",\"content\":\"A\"\x7d\n" ++
        "\x7b\"type\":\"message\",\"role\":\"assistant\",\"content\":\"B\"\x7d\n").data]).1.events =
      [.status "Running Gemini…", .status "Starting…"] := by
  exact ⟨by decide, by decide⟩

/-- Claim C7: the read-tool started payload with path /a/b/c.ts maps to
the reading-file status, the completed subtype appends the done marker,
and every unknown tool kind is labelled by the humanised first key with
a trailing ellipsis. -/
theorem c7_toolcall_labels :
    (parseStreamEvent ("\x7b\"type\":\"tool_call\",\"subtype\":\"started\"," ++
        "\"tool_call\":\x7b\"readToolCall\":\x7b\"args\":\x7b\"path\":\"/a/b/c.ts\"\x7d\x7d\x7d\x7d") =
      some { status := some "Reading file: c.ts" }) ∧
    (parseStreamEvent ("\x7b\"type\":\"tool_call\",\"subtype\":\"completed\"," ++
        "\"tool_call\":\x7b\"readToolCall\":\x7b\"args\":\x7b\"path\":\"/a/b/c.ts\"\x7d\x7d\x7d\x7d") =
      some { status := some "Reading file: c.ts — done." }) ∧
    (∀ (k : String) (v : Json),
      k ∉ ["readToolCall", "grepToolCall", "listDirToolCall", "codebaseSearchToolCall",
        "webSearchToolCall"] → k ≠ "" →
      getToolCallInfo (Json.obj [(k, v)]) = some (humanizeKey k ++ "…")) := by
  refine ⟨by decide, by decide, ?_⟩
  intro k v hk hk0
  simp only [List.mem_cons, List.mem_singleton, List.not_mem_nil, or_false] at hk
  push_neg at hk
  obtain ⟨hk1, hk2, hk3, hk4, hk5⟩ := hk
  simp [getToolCallInfo, Json.getField, lookupField, hk1, hk2, hk3, hk4, hk5,
    jsObjTruthy, jsOptTruthy, objKeys, hk0]

/-- Witness for C7: the unknown-kind branch evaluated on one concrete
payload. -/
theorem c7_toolcall_labels_witness :
    getToolCallInfo (Json.obj [("deleteFileToolCall", Json.null)]) =
      some "Delete File Tool Call…" := by
  have h := c7_toolcall_labels.2.2 "deleteFileToolCall" Json.null (by decide) (by decide)
  rw [h]
  decide

/-- Claim C8: parseStreamEvent is a total function, modelled as such; a
line whose trimmed text fails JSON.parse, and in particular the
whitespace-only line, is absorbed into no event rather than an
exception. -/
theorem c8_totality_absorption :
    (∀ line : String, jsonParse (jsTrim line).data = none → parseStreamEvent line = none) ∧
    (∀ line : String, jsTrim line = "" → parseStreamEvent line = none) := by
  constructor
  · intro line h
    unfold parseStreamEvent
    by_cases he : jsTrim line = ""
    · rw [if_pos he]
    · rw [if_neg he, h]
  · intro line he
    unfold parseStreamEvent
    rw [if_pos he]

/-- Witness for C8: a malformed line and a whitespace line both map to no
event. -/
theorem c8_totality_absorption_witness :
    parseStreamEvent "not json \x7b\x7b" = none ∧ parseStreamEvent "   " = none :=
  ⟨c8_totality_absorption.1 "not json \x7b\x7b" rfl,
   c8_totality_absorption.2 "   " rfl⟩

/-- Claim C9: getProjectPath throws for every project name containing a
parent reference or a path separator; whenever it returns, the returned
path is exactly the sources directory joined with the single-segment
name. -/
theorem c9_traversal_guard :
    ∀ (dir name : String),
      ((containsSub name ".." = true ∨ containsSub name "/" = true ∨
          containsSub name "\\" = true) →
        getProjectPath dir name = .error ("Invalid project name " ++ name ++ ".")) ∧
      (∀ p, getProjectPath dir name = .ok p →
        p = joinPath dir name ∧ containsSub name ".." = false ∧
        containsSub name "/" = false ∧ containsSub name "\\" = false) := by
  intro dir name
  constructor
  · intro h
    unfold getProjectPath
    rw [if_pos h]
  · intro p hp
    unfold getProjectPath at hp
    by_cases hg : containsSub name ".." = true ∨ containsSub name "/" = true ∨
        containsSub name "\\" = true
    · rw [if_pos hg] at hp
      cases hp
    · rw [if_neg hg] at hp
      push_neg at hg
      obtain ⟨h1, h2, h3⟩ := hg
      refine ⟨by cases hp; rfl, by simp [h1], by simp [h2], by simp [h3]⟩

/-- Witness for C9: a traversal attempt is rejected and a plain name is
joined under the sources directory. -/
theorem c9_traversal_guard_witness :
    getProjectPath "/src" "../x" = Except.error "Invalid project name ../x." ∧
    ("/src/proj" = joinPath "/src" "proj" ∧ containsSub "proj" ".." = false ∧
      containsSub "proj" "/" = false ∧ containsSub "proj" "\\" = false) := by
  constructor
  · have h := (c9_traversal_guard "/src" "../x").1 (Or.inl (by decide))
    rw [h]
    rfl
  · exact (c9_traversal_guard "/src" "proj").2 "/src/proj" (by rfl)

/-- Counterexample for C4: with exit code 1, stderr boom and accumulated
assistant text A, the claimed precedence predicts the Result A, but
emitFinal checks the exit code first and emits the Error. -/
theorem c4_fallback_order_counterexample :
    emitFinal false (some 1) "boom" "raw" "A" = [.error "Exit code 1. stderr:\nboom"] ∧
    emitFinal false (some 1) "boom" "raw" "A" ≠ [.result "A"] := by
  exact ⟨by decide, by decide⟩

/-- Claim C4 as amended: when the lenient adapter's process closes
without a terminal event, a non-zero exit code takes priority and yields
the Error built from captured stderr and the code; only with exit code
zero or unknown does the adapter prefer accumulated assistant text, then
raw stdout, then a Result embedding stderr, then the placeholder. After
a terminal event, emitFinal emits nothing. -/
theorem c4_fallback_order_amended :
    ∀ (ec : Option Int) (stB soB acB : String),
      (∀ code : Int, ec = some code → code ≠ 0 →
        emitFinal false ec stB soB acB = [.error (exitMsg code (jsTrim stB))]) ∧
      ((ec = none ∨ ec = some 0) → jsTrim acB ≠ "" →
        emitFinal false ec stB soB acB = [.result (jsTrim acB)]) ∧
      ((ec = none ∨ ec = some 0) → jsTrim acB = "" → jsTrim soB ≠ "" →
        emitFinal false ec stB soB acB = [.result (jsTrim soB)]) ∧
      ((ec = none ∨ ec = some 0) → jsTrim acB = "" → jsTrim soB = "" → jsTrim stB ≠ "" →
        emitFinal false ec stB soB acB =
          [.result ("(No stdout)\n\n--- stderr ---\n" ++ jsTrim stB)]) ∧
      ((ec = none ∨ ec = some 0) → jsTrim acB = "" → jsTrim soB = "" → jsTrim stB = "" →
        emitFinal false ec stB soB acB = [.result "(No output)"]) ∧
      emitFinal true ec stB soB acB = [] := by
  intro ec stB soB acB
  refine ⟨?_, ?_, ?_, ?_, ?_, emitFinal_resultEmitted ec stB soB acB⟩
  · intro code hec hne
    subst hec
    simp only [emitFinal, Bool.false_eq_true, if_false]
    rw [if_pos hne]
  · rintro (rfl | rfl) hac
    · simp only [emitFinal, emitFinalFallback, Bool.false_eq_true, if_false]
      rw [if_pos hac]
    · simp only [emitFinal, emitFinalFallback, Bool.false_eq_true, if_false]
      rw [if_neg (by simp), if_pos hac]
  · rintro (rfl | rfl) hac hso
    · simp only [emitFinal, emitFinalFallback, Bool.false_eq_true, if_false]
      rw [if_neg (by simp [hac]), if_pos hso]
    · simp only [emitFinal, emitFinalFallback, Bool.false_eq_true, if_false]
      rw [if_neg (by simp), if_neg (by simp [hac]), if_pos hso]
  · rintro (rfl | rfl) hac hso hst
    · simp only [emitFinal, emitFinalFallback, Bool.false_eq_true, if_false]
      rw [if_neg (by simp [hac]), if_neg (by simp [hso]), if_pos hst]
    · simp only [emitFinal, emitFinalFallback, Bool.false_eq_true, if_false]
      rw [if_neg (by simp), if_neg (by simp [hac]), if_neg (by simp [hso]), if_pos hst]
  · rintro (rfl | rfl) hac hso hst
    · simp only [emitFinal, emitFinalFallback, Bool.false_eq_true, if_false]
      rw [if_neg (by simp [hac]), if_neg (by simp [hso]), if_neg (by simp [hst])]
    · simp only [emitFinal, emitFinalFallback, Bool.false_eq_true, if_false]
      rw [if_neg (by simp), if_neg (by simp [hac]), if_neg (by simp [hso]),
        if_neg (by simp [hst])]

/-- Witness for C4: the specified example, exit code 1 with stderr boom
and nothing collected, emits the Error with the exit code and stderr. -/
theorem c4_fallback_order_witness :
    emitFinal false (some 1) "boom" "" "" = [.error "Exit code 1. stderr:\nboom"] := by
  have h := (c4_fallback_order_amended (some 1) "boom" "" "").1 1 rfl (by decide)
  rw [h]
  decide

/-- Counterexample for C1: a native stream with two result lines makes
the lenient adapter emit two terminal events; no adapter treats the
first terminal event as ending the run. -/
theorem c1_terminal_uniqueness_counterexample :
    countTerminal (runGeminiStream
      [("\x7b\"type\":\"result\",\"status\":\"success\"\x7d\n" ++
        "\x7b\"type\":\"result\",\"status\":\"success\"\x7d\n").data] (some 0) "") = 2 := by
  decide

/-- Claim C1 as amended: the adapters do not suppress events after a
terminal one; the at-most-one-terminal shape holds exactly when the
native input itself is well behaved. For each adapter, if no line or
message before the last carries a terminal payload (and, for the SDK
adapter, no exception is raised), then every event before the last one
is non-terminal, so at most one terminal event is produced and nothing
follows it. -/
theorem c1_terminal_uniqueness_amended :
    (∀ (f : List Char → Option ParsedEvent) (chunks : List (List Char)),
      (∀ l ∈ (processedLines chunks).dropLast, terminalLine f l = false) →
      allNonTerminalBefore (mcpConsume f chunks) = true) ∧
    (∀ (chunks : List (List Char)) (ec : Option Int) (st : String),
      (∀ l ∈ (completeLines chunks).dropLast, gemTerminalLine l = false) →
      allNonTerminalBefore (runGeminiStream chunks ec st) = true) ∧
    (∀ msgs : List Json,
      (∀ m ∈ msgs.dropLast, ∀ e ∈ claudeMsgEvents m, e.isTerminal = false) →
      allNonTerminalBefore (runClaudeAgentStream none msgs none) = true) :=
  ⟨mcp_no_events_after_terminal, gemini_no_events_after_terminal,
    claude_no_events_after_terminal⟩

/-- Witness for C1: concrete well-behaved runs of all three adapters. -/
theorem c1_terminal_uniqueness_witness :
    allNonTerminalBefore (mcpConsume pse
      [("\x7b\"type\":\"status\",\"status\":\"s\"\x7d\n" ++
        "\x7b\"type\":\"result\",\"subtype\":\"success\",\"result\":\"done\"\x7d\n").data]) = true ∧
    allNonTerminalBefore (runGeminiStream
      [("\x7b\"type\":\"init\"\x7d\n\x7b\"type\":\"result\",\"status\":\"success\"\x7d\n").data]
      (some 0) "") = true ∧
    allNonTerminalBefore (runClaudeAgentStream none
      [Json.obj [("type", Json.str "system"), ("subtype", Json.str "init")],
       Json.obj [("type", Json.str "result"), ("subtype", Json.str "success"),
         ("result", Json.str "ok")]] none) = true :=
  ⟨c1_terminal_uniqueness_amended.1 pse _ (by decide),
   c1_terminal_uniqueness_amended.2.1 _ (some 0) "" (by decide),
   c1_terminal_uniqueness_amended.2.2 _ (by decide)⟩

/-- Counterexample for C3: an Error line ends the MCP consumer's data
handler for the rest of its chunk only, so the same bytes chunked
differently yield different event sequences. -/
theorem c3_chunk_invariance_counterexample :
    mcpConsume pse [("\x7b\"type\":\"error\",\"error\":\"x\"\x7d\n" ++
        "\x7b\"type\":\"status\",\"status\":\"s\"\x7d\n").data] = [.error "x"] ∧
    mcpConsume pse [("\x7b\"type\":\"error\",\"error\":\"x\"\x7d\n").data,
        ("\x7b\"type\":\"status\",\"status\":\"s\"\x7d\n").data] = [.error "x", .status "s"] ∧
    mcpConsume pse [("\x7b\"type\":\"error\",\"error\":\"x\"\x7d\n" ++
        "\x7b\"type\":\"status\",\"status\":\"s\"\x7d\n").data] ≠
      mcpConsume pse [("\x7b\"type\":\"error\",\"error\":\"x\"\x7d\n").data,
        ("\x7b\"type\":\"status\",\"status\":\"s\"\x7d\n").data] := by
  exact ⟨by decide, by decide, by decide⟩

/-- Claim C3 as amended: chunk-boundary invariance holds unconditionally
for the lenient adapter's internal consumer, and for the MCP consumer
on every stream none of whose complete lines maps to an Error. -/
theorem c3_chunk_invariance_amended :
    (∀ (chunks : List (List Char)) (ec : Option Int) (st : String),
      runGeminiStream chunks ec st = runGeminiStream [chunks.flatten] ec st) ∧
    (∀ (f : List Char → Option ParsedEvent) (chunks : List (List Char)),
      (∀ l ∈ completeLines chunks, errLine f l = false) →
      mcpConsume f chunks = mcpConsume f [chunks.flatten]) := by
  constructor
  · intro chunks ec st
    unfold runGeminiStream gemData
    rw [bufferedFold_eq gemLineStep chunks gemInit [] (by simp),
      bufferedFold_eq gemLineStep [chunks.flatten] gemInit [] (by simp)]
    simp
  · intro f chunks h
    have h' : ∀ l ∈ (splitNl ([] ++ chunks.flatten)).dropLast.dropLast, errLine f l = false := by
      intro l hl
      exact h l (by simpa [completeLines] using List.mem_of_mem_dropLast hl)
    have h'' : ∀ l ∈ (splitNl ([] ++ ([chunks.flatten] : List (List Char)).flatten)).dropLast.dropLast,
        errLine f l = false := by
      intro l hl
      refine h l ?_
      simp only [List.flatten_cons, List.flatten_nil, List.append_nil, List.nil_append] at hl
      simpa [completeLines] using List.mem_of_mem_dropLast hl
    unfold mcpConsume
    rw [mcpChunks_canonical f chunks [] (by simp) h',
      mcpChunks_canonical f [chunks.flatten] [] (by simp) h'']
    simp

/-- Witness for C3: a status line split in the middle across two chunks
yields the same events as the unsplit text. -/
theorem c3_chunk_invariance_witness :
    mcpConsume pse [("\x7b\"type\":\"status\",\"sta").data, ("tus\":\"s\"\x7d\n").data] =
      mcpConsume pse
        [([("\x7b\"type\":\"status\",\"sta").data, ("tus\":\"s\"\x7d\n").data] :
          List (List Char)).flatten] :=
  c3_chunk_invariance_amended.2 pse _ (by decide)

/-- Counterexample for C6: the lenient adapter never passes its buffered
partial line through the mapping on close. A final un-terminated init
line produces no Starting status; the same line with a newline does. -/
theorem c6_flush_counterexample :
    runGeminiStream [("\x7b\"type\":\"init\"\x7d").data] (some 0) "" =
      [.status "Running Gemini…", .result "\x7b\"type\":\"init\"\x7d"] ∧
    (runGeminiStream [("\x7b\"type\":\"init\"\x7d").data] (some 0) "").contains
      (.status "Starting…") = false ∧
    (runGeminiStream [("\x7b\"type\":\"init\"\x7d\n").data] (some 0) "").contains
      (.status "Starting…") = true := by
  exact ⟨by decide, by decide, by decide⟩

/-- Claim C6 as amended: the MCP consumer ends every stream by passing
the trailing partial line, when nonempty, through the same per-line
mapping as complete lines; the lenient adapter's internal consumer does
not flush its buffer. -/
theorem c6_flush_amended :
    ∀ (f : List Char → Option ParsedEvent) (chunks : List (List Char)),
      mcpConsume f chunks = mcpChunksNoFlush f [] chunks ++ flushEvents f (lastPart chunks) := by
  intro f chunks
  unfold mcpConsume lastPart
  rw [mcpChunks_flush_decomp f chunks [] (by simp)]
  rw [List.nil_append]

/-- Counterexample for C10: when the SDK fails to load, the catch block
pushes the Error before any status, so the first event of that run is
not a Status. -/
theorem c10_first_event_counterexample :
    (runClaudeAgentStream (some "boom") [] none).head? = some (.error "boom") ∧
    Event.isStatus (.error "boom") = false := by
  exact ⟨rfl, rfl⟩

/-- Claim C10 as amended: the lenient adapter's first event is always the
initial Running status, pushed before any native output is read; the SDK
adapter's first event is the initial Starting status whenever the SDK
loads without an exception, regardless of the messages or of a later
exception. -/
theorem c10_first_event_amended :
    (∀ (chunks : List (List Char)) (ec : Option Int) (st : String),
      (runGeminiStream chunks ec st).head? = some (.status "Running Gemini…")) ∧
    (∀ (msgs : List Json) (iterErr : Option String),
      (runClaudeAgentStream none msgs iterErr).head? = some (.status "Starting…")) :=
  ⟨gemini_first_event, claude_first_event⟩
